import Mathlib

/-!
# Verification of `BinarySearchTree.hpp`

A shallow embedding of the pointer-based binary search tree from
`BinarySearchTree.hpp` (CSUF-CPSC-131-Fall2019/Data-Structures-Code).

The C++ tree is heap-allocated: every node stores a key, a value, two
owning child pointers and a non-owning parent pointer.  We embed it as an
inductive tree in which the child pointers become the structural subtrees
(the code only ever relinks a child slot to a subtree it already owns, so
nesting is faithful), while the node's identity (its heap address) and its
stored parent pointer are kept as explicit data, updated exactly where the
C++ assigns `parent_` or allocates with `new`.  A `BST` value packages the
`root_` pointer with a fresh-address counter modelling the allocator.

The repository compiles with `USING_RECURSIVE_FUNCTIONS` by default, so
`search`, `insert` and `remove` delegate to the recursive helpers; the
iterative search is modelled separately as a fuel-bounded cursor loop.
-/

namespace BinarySearchTree

/-- The data fields of `struct Node` other than the two child pointers:
`key_`, `value_`, and the stored (non-owning) `parent_` pointer, modelled
as the optional heap address of the parent (`none` = `nullptr`). -/
structure NodeData (K V : Type) where
  key_ : K
  value_ : V
  parent_ : Option Nat
deriving DecidableEq, Repr

/-- A heap-allocated subtree: `nil` is the null pointer; `node addr data
left_ right_` is the node at heap address `addr` with stored fields `data`
and child pointers `left_`, `right_`. -/
inductive Tree (K V : Type) where
  | nil : Tree K V
  | node (addr : Nat) (data : NodeData K V) (left_ right_ : Tree K V) : Tree K V
deriving DecidableEq, Repr

namespace Tree

variable {K V : Type}

/-- Number of nodes of a subtree (used only to bound the iterative
search's cursor loop). -/
def size : Tree K V → Nat
  | nil => 0
  | node _ _ l r => size l + size r + 1

/-- The in-order sequence of `(key, value)` pairs: left subtree, then the
node, then the right subtree — the order in which
`printInorder(Node*)` visits and prints the nodes. -/
def inorderKV : Tree K V → List (K × V)
  | nil => []
  | node _ d l r => inorderKV l ++ (d.key_, d.value_) :: inorderKV r

/-- The in-order sequence of keys. -/
def keys (t : Tree K V) : List K :=
  (inorderKV t).map Prod.fst

/-- `getHeight(Node*)`: `-1` for a null pointer, else
`1 + max(leftHeight, rightHeight)`. -/
def getHeight : Tree K V → Int
  | nil => -1
  | node _ _ l r => 1 + max (getHeight l) (getHeight r)

/-- The value stored at the root node, if any (`node->value_`). -/
def rootValue : Tree K V → Option V
  | nil => none
  | node _ d _ _ => some d.value_

/-- Overwrite the `parent_` field of the root node of a subtree; models the
assignments `newChild->parent_ = parent`, `root_->parent_ = nullptr` and
the parent rewiring in `makeCopy`. -/
def setParent : Tree K V → Option Nat → Tree K V
  | nil, _ => nil
  | node a d l r, p => node a ⟨d.key_, d.value_, p⟩ l r

variable [LinearOrder K]

/-- `searchRecursive(Node*, Key)` (zyBook Figure 7.10.1): return the node
if the key matches, descend left if the sought key is smaller, otherwise
descend right; `none` models returning `nullptr`. -/
def searchRecursive : Tree K V → K → Option (Tree K V)
  | nil, _ => none
  | node a d l r, k =>
    if k = d.key_ then some (node a d l r)
    else if k < d.key_ then searchRecursive l k
    else searchRecursive r k

/-- The `while (cur != nullptr)` loop of `searchIterative`, with fuel
bounding the number of iterations (each iteration moves the cursor `cur`
one level down). -/
def searchLoop : Nat → Tree K V → K → Option (Tree K V)
  | 0, _, _ => none
  | _ + 1, nil, _ => none
  | fuel + 1, node a d l r, k =>
    if k = d.key_ then some (node a d l r)
    else if k < d.key_ then searchLoop fuel l k
    else searchLoop fuel r k

/-- `searchIterative(Key)` (zyBook Figure 7.4.1): run the cursor loop from
the given root; `size t` iterations always suffice to reach a null child. -/
def searchIterative (t : Tree K V) (k : K) : Option (Tree K V) :=
  searchLoop (size t) t k

/-- `insertRecursive(parent, nodeToInsert)` (zyBook Figure 7.10.2), with
the new node freshly allocated at heap address `newAddr` holding `k` and
`v`: descend left when `k` is strictly smaller than the current key,
otherwise right, attach at the first absent child slot, and set the new
node's `parent_` to the attach point. -/
def insertRecursive (newAddr : Nat) (k : K) (v : V) : Tree K V → Tree K V
  | nil => nil
  | node a d l r =>
    if k < d.key_ then
      match l with
      | nil => node a d (node newAddr ⟨k, v, some a⟩ nil nil) r
      | node la ld ll lr => node a d (insertRecursive newAddr k v (node la ld ll lr)) r
    else
      match r with
      | nil => node a d l (node newAddr ⟨k, v, some a⟩ nil nil)
      | node ra rd rl rr => node a d l (insertRecursive newAddr k v (node ra rd rl rr))

/-- The body of `insert(key, value)` after allocating the node at address
`newAddr`: a null root is replaced by the new node (whose `parent_` stays
the constructor's `nullptr`), otherwise `insertRecursive` attaches it. -/
def insertTop (newAddr : Nat) (k : K) (v : V) : Tree K V → Tree K V
  | nil => node newAddr ⟨k, v, none⟩ nil nil
  | node a d l r => insertRecursive newAddr k v (node a d l r)

/-- The in-order successor scan of `remove(Node*)`:
`succNode = node->right_; while (succNode->left_ != nullptr) succNode =
succNode->left_;` — starting at the node `(a, d)` with left child `l`, the
heap address and data of the leftmost node reached. -/
def leftmostD (a : Nat) (d : NodeData K V) : Tree K V → Nat × NodeData K V
  | nil => (a, d)
  | node a' d' l' _ => leftmostD a' d' l'

/-- The recursive `remove(succNode)` call of the two-children case: the
successor is the leftmost node of the right subtree, it has no left child
and is never the root, so its removal is `replaceChild(succ->parent_,
succ, succ->right_)` followed by `newChild->parent_ = parent`. -/
def removeLeftmost : Tree K V → Tree K V
  | nil => nil
  | node _ d nil r => setParent r d.parent_
  | node a d (node la ld ll lr) r => node a d (removeLeftmost (node la ld ll lr)) r

/-- `remove(Node*)` (zyBook Figure 7.9.3) applied to the root of this
subtree, which the caller found by key search.  `isRoot` records whether
that node is the tree's `root_` (Case 2).  Two children: copy the in-order
successor's key and value into the node and remove the successor from the
right subtree.  Otherwise the node is unlinked: at the root the surviving
child becomes the new root with `parent_` nulled; elsewhere
`replaceChild(node->parent_, node, child)` repoints the parent's slot to
the surviving child and sets that child's `parent_` to the removed node's
stored `parent_`. -/
def removeNode (isRoot : Bool) : Tree K V → Tree K V
  | nil => nil
  | node a d l r =>
    match l, r with
    | node la ld ll lr, node ra rd rl rr =>
      let s := leftmostD ra rd rl
      node a ⟨(s.2).key_, (s.2).value_, d.parent_⟩ (node la ld ll lr)
        (removeLeftmost (node ra rd rl rr))
    | l, r =>
      let child := match l with
        | nil => r
        | _ => l
      if isRoot then setParent child none
      else setParent child d.parent_

/-- `remove(Key)` fused with the `searchRecursive` descent that locates the
first matching node: rebuild the tree with `removeNode` applied at the
found position (`isRoot` is true only at the top of the descent); if no
node matches, `remove(nullptr)` returns immediately and the tree is
untouched. -/
def removeGo (k : K) (isRoot : Bool) : Tree K V → Tree K V
  | nil => nil
  | node a d l r =>
    if k = d.key_ then removeNode isRoot (node a d l r)
    else if k < d.key_ then node a d (removeGo k false l) r
    else node a d l (removeGo k false r)

/-- `makeCopy(Node*)`: allocate a fresh node (addresses are drawn from the
counter `n` upward) with the original's key and value and a null parent,
deep-copy both children, then point the copies' `parent_` fields at the
new node.  Returns the copy together with the advanced counter. -/
def makeCopy : Tree K V → Nat → Tree K V × Nat
  | nil, n => (nil, n)
  | node _ d l r, n =>
    let a := n
    let cl := makeCopy l (n + 1)
    let cr := makeCopy r cl.2
    (node a ⟨d.key_, d.value_, none⟩ (setParent cl.1 (some a)) (setParent cr.1 (some a)),
      cr.2)

end Tree

/-- The `BinarySearchTree` object: the `root_` pointer plus the allocator
state (the next heap address `new` hands out; C++ never returns the same
live address twice). -/
structure BST (K V : Type) where
  root_ : Tree K V
  next : Nat
deriving DecidableEq, Repr

namespace BST

variable {K V : Type}

/-- The default-constructed tree: `root_ = nullptr`. -/
def empty : BST K V := ⟨Tree.nil, 0⟩

/-- `clear()`: the tree returns to the empty state (nodes are released;
no addresses are reused). -/
def clearOp (s : BST K V) : BST K V := ⟨Tree.nil, s.next⟩

variable [LinearOrder K]

/-- `insert(key, value)`: allocate `new Node(key, value)` (null children,
null parent) at the next fresh address; if `root_` is null it becomes the
root, otherwise `insertRecursive(root_, node)` attaches it. -/
def insertOp (k : K) (v : V) (s : BST K V) : BST K V :=
  ⟨Tree.insertTop s.next k v s.root_, s.next + 1⟩

/-- `remove(key)`: `remove(searchRecursive(root_, key))`. -/
def removeOp (k : K) (s : BST K V) : BST K V :=
  ⟨Tree.removeGo k true s.root_, s.next⟩

/-- `search(key)`: the value of the node `searchRecursive(root_, key)`
returns, or `none` where the C++ throws `invalid_argument("Key not
found")`.  The method is `const`: it is paired with the unchanged tree. -/
def searchOp (s : BST K V) (k : K) : Option V × BST K V :=
  ((Tree.searchRecursive s.root_ k).bind Tree.rootValue, s)

/-- The copy constructor: `root_ = makeCopy(original.root_)`, drawing
fresh heap addresses. -/
def copyOp (s : BST K V) : BST K V :=
  let c := Tree.makeCopy s.root_ s.next
  ⟨c.1, c.2⟩

/-- `operator=(BinarySearchTree rhs)`: the by-value parameter deep-copies
the source (fresh addresses, beyond both trees' allocations), and the swap
leaves that copy as this tree's contents. -/
def assignOp (tgt src : BST K V) : BST K V :=
  let c := Tree.makeCopy src.root_ (max tgt.next src.next)
  ⟨c.1, c.2⟩

/-- Tree states reachable from the default-constructed tree by the public
mutating interface: `insert`, `remove`, `clear`, copy construction and
copy assignment. -/
inductive Reachable : BST K V → Prop
  | empty : Reachable empty
  | insert (k : K) (v : V) {s : BST K V} : Reachable s → Reachable (insertOp k v s)
  | remove (k : K) {s : BST K V} : Reachable s → Reachable (removeOp k s)
  | clear {s : BST K V} : Reachable s → Reachable (clearOp s)
  | copy {s : BST K V} : Reachable s → Reachable (copyOp s)
  | assign {t s : BST K V} : Reachable t → Reachable s → Reachable (assignOp t s)

end BST

namespace Tree

variable {K V : Type}

/-- The BST ordering property as the spec states it: at every node, every
key in the left subtree is strictly less than the node's key and every key
in the right subtree is greater than or equal to it (duplicates to the
right). -/
def bstOrdered [LinearOrder K] : Tree K V → Bool
  | nil => true
  | node _ d l r =>
    (keys l).all (fun k => decide (k < d.key_)) &&
    (keys r).all (fun k => decide (d.key_ ≤ k)) &&
    bstOrdered l && bstOrdered r

/-- Parent-pointer consistency: every node's stored `parent_` field equals
the heap address of its structural parent (`p` is the expected parent of
the root of this subtree; `none` for `root_`). -/
def parentOk : Option Nat → Tree K V → Bool
  | _, nil => true
  | p, node a d l r => decide (d.parent_ = p) && parentOk (some a) l && parentOk (some a) r

/-- All heap addresses in the subtree are below `n` (the allocator
invariant: allocated addresses are below the next fresh one). -/
def addrsBelow (n : Nat) : Tree K V → Bool
  | nil => true
  | node a _ l r => decide (a < n) && addrsBelow n l && addrsBelow n r

/-- The list of heap addresses of the nodes of a subtree. -/
def addrs : Tree K V → List Nat
  | nil => []
  | node a _ l r => a :: (addrs l ++ addrs r)

/-- The shape of a subtree with node identities and parent pointers
erased: only the structure and the key/value payloads. -/
def strip : Tree K V → Tree K V
  | nil => nil
  | node _ d l r => node 0 ⟨d.key_, d.value_, none⟩ (strip l) (strip r)

end Tree

/-- Inserting a list of `(key, value)` pairs in order, as the demo driver
does. -/
def BST.insertList {K V : Type} [LinearOrder K] (ps : List (K × V)) (s : BST K V) :
    BST K V :=
  ps.foldl (fun t p => BST.insertOp p.1 p.2 t) s

/-- The `studentGrades` tree built by the demo driver (`main`): keys are
`std::string`, modelled as their character sequences under lexicographic
order, and values are `double` literals, modelled as the rationals they
denote (the program only stores and returns them). -/
def studentGrades : BST (List Char) ℚ :=
  BST.insertList
    [("Ricardo".toList, 2.5), ("Ellen".toList, 3.5), ("Chen".toList, 2.5),
     ("Kevin".toList, 3.25), ("Kumar".toList, 3.05)]
    BST.empty

/-- A small concrete tree state used to instantiate the general theorems. -/
def sampleBST : BST Nat Nat :=
  BST.insertOp 3 30 (BST.insertOp 1 10 (BST.insertOp 2 20 BST.empty))

/-! ## Basic lemmas about the embedded operations -/

namespace Tree

variable {K V : Type}

@[simp]
theorem inorderKV_nil : inorderKV (nil : Tree K V) = [] := rfl

@[simp]
theorem inorderKV_node (a : Nat) (d : NodeData K V) (l r : Tree K V) :
    inorderKV (node a d l r) = inorderKV l ++ (d.key_, d.value_) :: inorderKV r := rfl

@[simp]
theorem keys_nil : keys (nil : Tree K V) = [] := rfl

@[simp]
theorem keys_node (a : Nat) (d : NodeData K V) (l r : Tree K V) :
    keys (node a d l r) = keys l ++ d.key_ :: keys r := by
  simp [keys]

@[simp]
theorem inorderKV_setParent (t : Tree K V) (p : Option Nat) :
    inorderKV (setParent t p) = inorderKV t := by
  cases t <;> rfl

@[simp]
theorem keys_setParent (t : Tree K V) (p : Option Nat) :
    keys (setParent t p) = keys t := by
  simp [keys]

@[simp]
theorem getHeight_setParent (t : Tree K V) (p : Option Nat) :
    getHeight (setParent t p) = getHeight t := by
  cases t <;> rfl

@[simp]
theorem addrs_setParent (t : Tree K V) (p : Option Nat) :
    addrs (setParent t p) = addrs t := by
  cases t <;> rfl

theorem inorderKV_node_ne_nil (a : Nat) (d : NodeData K V) (l r : Tree K V) :
    inorderKV (node a d l r) ≠ [] := by
  simp

theorem parentOk_node_iff (p : Option Nat) (a : Nat) (d : NodeData K V) (l r : Tree K V) :
    parentOk p (node a d l r) = true ↔
      d.parent_ = p ∧ parentOk (some a) l = true ∧ parentOk (some a) r = true := by
  simp [parentOk, and_assoc]

theorem addrsBelow_node_iff (n : Nat) (a : Nat) (d : NodeData K V) (l r : Tree K V) :
    addrsBelow n (node a d l r) = true ↔
      a < n ∧ addrsBelow n l = true ∧ addrsBelow n r = true := by
  simp [addrsBelow, and_assoc]

theorem addrsBelow_mono {n m : Nat} (h : n ≤ m) :
    ∀ {t : Tree K V}, addrsBelow n t = true → addrsBelow m t = true := by
  intro t
  induction t with
  | nil => intro _; rfl
  | node a d l r ihl ihr =>
    intro ht
    rw [addrsBelow_node_iff] at ht ⊢
    exact ⟨lt_of_lt_of_le ht.1 h, ihl ht.2.1, ihr ht.2.2⟩

section Ordered

variable [LinearOrder K]

theorem bstOrdered_nil : bstOrdered (nil : Tree K V) = true := rfl

theorem bstOrdered_node_iff (a : Nat) (d : NodeData K V) (l r : Tree K V) :
    bstOrdered (node a d l r) = true ↔
      (∀ x ∈ keys l, x < d.key_) ∧ (∀ x ∈ keys r, d.key_ ≤ x) ∧
      bstOrdered l = true ∧ bstOrdered r = true := by
  simp [bstOrdered, List.all_eq_true, and_assoc]

@[simp]
theorem bstOrdered_setParent (t : Tree K V) (p : Option Nat) :
    bstOrdered (setParent t p) = bstOrdered t := by
  cases t <;> rfl

/-- In a BST-ordered tree the in-order key sequence is non-decreasing. -/
theorem sorted_keys_of_bstOrdered :
    ∀ {t : Tree K V}, bstOrdered t = true → (keys t).Sorted (· ≤ ·) := by
  intro t
  induction t with
  | nil => intro _; simp
  | node a d l r ihl ihr =>
    intro h
    rw [bstOrdered_node_iff] at h
    obtain ⟨hl, hr, hol, hor⟩ := h
    rw [keys_node]
    unfold List.Sorted
    rw [List.pairwise_append]
    refine ⟨ihl hol, ?_, ?_⟩
    · rw [List.pairwise_cons]
      exact ⟨hr, ihr hor⟩
    · intro x hx y hy
      rcases List.mem_cons.mp hy with hy | hy
      · exact le_of_lt (hy ▸ hl x hx)
      · exact le_of_lt (lt_of_lt_of_le (hl x hx) (hr y hy))

/-- The fuel-bounded cursor loop of `searchIterative` agrees with
`searchRecursive` whenever the fuel covers the number of nodes. -/
theorem searchLoop_eq_searchRecursive (k : K) :
    ∀ (t : Tree K V) (fuel : Nat), size t ≤ fuel →
      searchLoop fuel t k = searchRecursive t k := by
  intro t
  induction t with
  | nil => intro fuel _; cases fuel <;> rfl
  | node a d l r ihl ihr =>
    intro fuel h
    cases fuel with
    | zero => simp [size] at h
    | succ f =>
      have hl : size l ≤ f := by simp [size] at h; omega
      have hr : size r ≤ f := by simp [size] at h; omega
      simp only [searchLoop, searchRecursive, ihl f hl, ihr f hr]

/-! ### Insertion -/

theorem insertRecursive_lt_nil (newAddr : Nat) (k : K) (v : V) (a : Nat)
    (d : NodeData K V) (r : Tree K V) (hk : k < d.key_) :
    insertRecursive newAddr k v (node a d nil r) =
      node a d (node newAddr ⟨k, v, some a⟩ nil nil) r := by
  rw [insertRecursive.eq_def]
  simp [hk]

theorem insertRecursive_lt_node (newAddr : Nat) (k : K) (v : V) (a la : Nat)
    (d ld : NodeData K V) (r ll lr : Tree K V) (hk : k < d.key_) :
    insertRecursive newAddr k v (node a d (node la ld ll lr) r) =
      node a d (insertRecursive newAddr k v (node la ld ll lr)) r := by
  rw [insertRecursive.eq_def]
  simp [hk]

theorem insertRecursive_ge_nil (newAddr : Nat) (k : K) (v : V) (a : Nat)
    (d : NodeData K V) (l : Tree K V) (hk : ¬k < d.key_) :
    insertRecursive newAddr k v (node a d l nil) =
      node a d l (node newAddr ⟨k, v, some a⟩ nil nil) := by
  rw [insertRecursive.eq_def]
  simp [hk]

theorem insertRecursive_ge_node (newAddr : Nat) (k : K) (v : V) (a ra : Nat)
    (d rd : NodeData K V) (l rl rr : Tree K V) (hk : ¬k < d.key_) :
    insertRecursive newAddr k v (node a d l (node ra rd rl rr)) =
      node a d l (insertRecursive newAddr k v (node ra rd rl rr)) := by
  rw [insertRecursive.eq_def]
  simp [hk]

theorem mem_keys_insertRecursive (newAddr : Nat) (k : K) (v : V) :
    ∀ (t : Tree K V), ∀ x ∈ keys (insertRecursive newAddr k v t), x ∈ keys t ∨ x = k := by
  intro t
  induction t using insertRecursive.induct newAddr k v with
  | case1 => intro x hx; simp [insertRecursive] at hx
  | case2 a d r hk =>
    intro x hx
    rw [insertRecursive_lt_nil newAddr k v a d r hk] at hx
    simp only [keys_node, keys_nil, List.mem_append, List.mem_cons, List.not_mem_nil,
      or_false, List.nil_append] at hx ⊢
    tauto
  | case3 a d r hk la ld ll lr ih =>
    intro x hx
    rw [insertRecursive_lt_node newAddr k v a la d ld r ll lr hk] at hx
    simp only [keys_node, List.mem_append, List.mem_cons] at hx ⊢
    rcases hx with hx | hx
    · rcases ih x hx with hx | hx
      · simp only [keys_node, List.mem_append, List.mem_cons] at hx
        tauto
      · tauto
    · tauto
  | case4 a d l hk =>
    intro x hx
    rw [insertRecursive_ge_nil newAddr k v a d l hk] at hx
    simp only [keys_node, keys_nil, List.mem_append, List.mem_cons, List.not_mem_nil,
      or_false, List.nil_append] at hx ⊢
    tauto
  | case5 a d l hk ra rd rl rr ih =>
    intro x hx
    rw [insertRecursive_ge_node newAddr k v a ra d rd l rl rr hk] at hx
    simp only [keys_node, List.mem_append, List.mem_cons] at hx ⊢
    rcases hx with hx | hx
    · tauto
    · rcases hx with hx | hx
      · tauto
      · rcases ih x hx with hx2 | hx2
        · simp only [keys_node, List.mem_append, List.mem_cons] at hx2
          tauto
        · tauto

/-- `insertRecursive` preserves the BST ordering property. -/
theorem bstOrdered_insertRecursive (newAddr : Nat) (k : K) (v : V) :
    ∀ (t : Tree K V), bstOrdered t = true → bstOrdered (insertRecursive newAddr k v t) = true := by
  intro t
  induction t using insertRecursive.induct newAddr k v with
  | case1 => intro h; exact h
  | case2 a d r hk =>
    intro h
    rw [bstOrdered_node_iff] at h
    rw [insertRecursive_lt_nil newAddr k v a d r hk, bstOrdered_node_iff]
    refine ⟨?_, h.2.1, ?_, h.2.2.2⟩
    · intro x hx; simp at hx; simpa [hx] using hk
    · rw [bstOrdered_node_iff]
      simp [bstOrdered]
  | case3 a d r hk la ld ll lr ih =>
    intro h
    rw [bstOrdered_node_iff] at h
    rw [insertRecursive_lt_node newAddr k v a la d ld r ll lr hk, bstOrdered_node_iff]
    refine ⟨?_, h.2.1, ih h.2.2.1, h.2.2.2⟩
    intro x hx
    rcases mem_keys_insertRecursive newAddr k v _ x hx with hx | hx
    · exact h.1 x hx
    · exact hx ▸ hk
  | case4 a d l hk =>
    intro h
    rw [bstOrdered_node_iff] at h
    rw [insertRecursive_ge_nil newAddr k v a d l hk, bstOrdered_node_iff]
    refine ⟨h.1, ?_, h.2.2.1, ?_⟩
    · intro x hx; simp at hx; simpa [hx] using le_of_not_lt hk
    · rw [bstOrdered_node_iff]
      simp [bstOrdered]
  | case5 a d l hk ra rd rl rr ih =>
    intro h
    rw [bstOrdered_node_iff] at h
    rw [insertRecursive_ge_node newAddr k v a ra d rd l rl rr hk, bstOrdered_node_iff]
    refine ⟨h.1, ?_, h.2.2.1, ih h.2.2.2⟩
    intro x hx
    rcases mem_keys_insertRecursive newAddr k v _ x hx with hx | hx
    · exact h.2.1 x hx
    · exact hx ▸ le_of_not_lt hk

/-- `insertRecursive` preserves parent-pointer consistency: the new node's
`parent_` is set to its attach point. -/
theorem parentOk_insertRecursive (newAddr : Nat) (k : K) (v : V) :
    ∀ (t : Tree K V) (p : Option Nat), parentOk p t = true →
      parentOk p (insertRecursive newAddr k v t) = true := by
  intro t
  induction t using insertRecursive.induct newAddr k v with
  | case1 => intro p h; exact h
  | case2 a d r hk =>
    intro p h
    rw [parentOk_node_iff] at h
    rw [insertRecursive_lt_nil newAddr k v a d r hk, parentOk_node_iff]
    exact ⟨h.1, by simp [parentOk_node_iff, parentOk], h.2.2⟩
  | case3 a d r hk la ld ll lr ih =>
    intro p h
    rw [parentOk_node_iff] at h
    rw [insertRecursive_lt_node newAddr k v a la d ld r ll lr hk, parentOk_node_iff]
    exact ⟨h.1, ih (some a) h.2.1, h.2.2⟩
  | case4 a d l hk =>
    intro p h
    rw [parentOk_node_iff] at h
    rw [insertRecursive_ge_nil newAddr k v a d l hk, parentOk_node_iff]
    exact ⟨h.1, h.2.1, by simp [parentOk_node_iff, parentOk]⟩
  | case5 a d l hk ra rd rl rr ih =>
    intro p h
    rw [parentOk_node_iff] at h
    rw [insertRecursive_ge_node newAddr k v a ra d rd l rl rr hk, parentOk_node_iff]
    exact ⟨h.1, h.2.1, ih (some a) h.2.2⟩

/-- Inserting a node with a fresh address keeps all addresses below the
advanced allocation counter. -/
theorem addrsBelow_insertRecursive (newAddr : Nat) (k : K) (v : V) {n : Nat}
    (ha : newAddr < n) :
    ∀ (t : Tree K V), addrsBelow n t = true →
      addrsBelow n (insertRecursive newAddr k v t) = true := by
  intro t
  induction t using insertRecursive.induct newAddr k v with
  | case1 => intro h; exact h
  | case2 a d r hk =>
    intro h
    rw [addrsBelow_node_iff] at h
    rw [insertRecursive_lt_nil newAddr k v a d r hk, addrsBelow_node_iff]
    exact ⟨h.1, by simp [addrsBelow_node_iff, addrsBelow, ha], h.2.2⟩
  | case3 a d r hk la ld ll lr ih =>
    intro h
    rw [addrsBelow_node_iff] at h
    rw [insertRecursive_lt_node newAddr k v a la d ld r ll lr hk, addrsBelow_node_iff]
    exact ⟨h.1, ih h.2.1, h.2.2⟩
  | case4 a d l hk =>
    intro h
    rw [addrsBelow_node_iff] at h
    rw [insertRecursive_ge_nil newAddr k v a d l hk, addrsBelow_node_iff]
    exact ⟨h.1, h.2.1, by simp [addrsBelow_node_iff, addrsBelow, ha]⟩
  | case5 a d l hk ra rd rl rr ih =>
    intro h
    rw [addrsBelow_node_iff] at h
    rw [insertRecursive_ge_node newAddr k v a ra d rd l rl rr hk, addrsBelow_node_iff]
    exact ⟨h.1, h.2.1, ih h.2.2⟩

end Ordered

/-! ### Removal -/

theorem tail_append_left {α : Type} {l₁ : List α} (l₂ : List α) (h : l₁ ≠ []) :
    (l₁ ++ l₂).tail = l₁.tail ++ l₂ := by
  cases l₁ with
  | nil => exact absurd rfl h
  | cons x xs => rfl

theorem tail_map {α β : Type} (f : α → β) (l : List α) :
    (l.map f).tail = l.tail.map f := by
  cases l <;> rfl

/-- The in-order sequence of a node starts with the key/value of the
leftmost node found by the `succNode` scan. -/
theorem inorderKV_eq_leftmostD_cons :
    ∀ (l : Tree K V) (a : Nat) (d : NodeData K V) (r : Tree K V),
      inorderKV (node a d l r) =
        ((leftmostD a d l).2.key_, (leftmostD a d l).2.value_) ::
          (inorderKV (node a d l r)).tail := by
  intro l
  induction l with
  | nil => intro a d r; rfl
  | node a' d' l' r' ih =>
    intro a d r
    have hL := ih a' d' r'
    have hne : inorderKV (node a' d' l' r') ≠ [] := inorderKV_node_ne_nil a' d' l' r'
    rw [show leftmostD a d (node a' d' l' r') = leftmostD a' d' l' from rfl]
    rw [inorderKV_node, tail_append_left _ hne]
    conv_lhs => rw [hL]
    rw [List.cons_append]

/-- Removing the leftmost node drops the first element of the in-order
sequence. -/
theorem inorderKV_removeLeftmost :
    ∀ (t : Tree K V), inorderKV (removeLeftmost t) = (inorderKV t).tail := by
  intro t
  induction t using removeLeftmost.induct with
  | case1 => rfl
  | case2 a d r => simp [removeLeftmost]
  | case3 a d la ld ll lr r ih =>
    rw [removeLeftmost, inorderKV_node, inorderKV_node, ih,
      tail_append_left _ (inorderKV_node_ne_nil la ld ll lr)]

theorem keys_removeLeftmost (t : Tree K V) :
    keys (removeLeftmost t) = (keys t).tail := by
  rw [keys, keys, inorderKV_removeLeftmost, tail_map]

theorem removeNode_two_children (b : Bool) (a la ra : Nat) (d ld rd : NodeData K V)
    (ll lr rl rr : Tree K V) :
    removeNode b (node a d (node la ld ll lr) (node ra rd rl rr)) =
      node a ⟨(leftmostD ra rd rl).2.key_, (leftmostD ra rd rl).2.value_, d.parent_⟩
        (node la ld ll lr) (removeLeftmost (node ra rd rl rr)) := rfl

theorem removeNode_left_nil (b : Bool) (a : Nat) (d : NodeData K V) (r : Tree K V) :
    removeNode b (node a d nil r) =
      if b then setParent r none else setParent r d.parent_ := by
  cases r <;> rfl

theorem removeNode_right_nil (b : Bool) (a la : Nat) (d ld : NodeData K V)
    (ll lr : Tree K V) :
    removeNode b (node a d (node la ld ll lr) nil) =
      if b then setParent (node la ld ll lr) none
      else setParent (node la ld ll lr) d.parent_ := rfl

theorem removeLeftmost_ordered [LinearOrder K] :
    ∀ {t : Tree K V}, bstOrdered t = true → bstOrdered (removeLeftmost t) = true := by
  intro t
  induction t using removeLeftmost.induct with
  | case1 => intro h; exact h
  | case2 a d r =>
    intro h
    rw [removeLeftmost, bstOrdered_setParent]
    exact ((bstOrdered_node_iff a d nil r).mp h).2.2.2
  | case3 a d la ld ll lr r ih =>
    intro h
    rw [bstOrdered_node_iff] at h
    rw [removeLeftmost, bstOrdered_node_iff]
    refine ⟨?_, h.2.1, ih h.2.2.1, h.2.2.2⟩
    intro x hx
    rw [keys_removeLeftmost] at hx
    exact h.1 x (List.mem_of_mem_tail hx)

/-- Every key of `removeNode b t` is a key of `t`. -/
theorem mem_keys_removeNode (b : Bool) :
    ∀ (t : Tree K V), ∀ x ∈ keys (removeNode b t), x ∈ keys t := by
  intro t
  match t with
  | nil => intro x hx; exact hx
  | node a d nil r =>
    intro x hx
    rw [removeNode_left_nil] at hx
    have hx2 : x ∈ keys r := by
      cases b <;> simpa using hx
    simp [hx2]
  | node a d (node la ld ll lr) nil =>
    intro x hx
    rw [removeNode_right_nil] at hx
    have hx2 : x ∈ keys (node la ld ll lr) := by
      cases b <;> simpa using hx
    rw [keys_node]
    exact List.mem_append.mpr (Or.inl hx2)
  | node a d (node la ld ll lr) (node ra rd rl rr) =>
    intro x hx
    rw [removeNode_two_children, keys_node] at hx
    rw [keys_node]
    rcases List.mem_append.mp hx with hx | hx
    · exact List.mem_append.mpr (Or.inl hx)
    · rcases List.mem_cons.mp hx with rfl | hx
      · refine List.mem_append.mpr (Or.inr (List.mem_cons_of_mem _ ?_))
        have hhead := inorderKV_eq_leftmostD_cons rl ra rd rr
        have hmem : (leftmostD ra rd rl).2.key_ ∈ keys (node ra rd rl rr) := by
          rw [keys, hhead]
          exact List.mem_map.mpr ⟨_, List.mem_cons_self _ _, rfl⟩
        exact hmem
      · refine List.mem_append.mpr (Or.inr (List.mem_cons_of_mem _ ?_))
        rw [keys_removeLeftmost] at hx
        exact List.mem_of_mem_tail hx

/-- `remove(Node*)` preserves the BST ordering property. -/
theorem removeNode_ordered [LinearOrder K] (b : Bool) :
    ∀ (t : Tree K V), bstOrdered t = true → bstOrdered (removeNode b t) = true := by
  intro t
  match t with
  | nil => intro h; exact h
  | node a d nil r =>
    intro h
    rw [removeNode_left_nil]
    have hr := ((bstOrdered_node_iff a d nil r).mp h).2.2.2
    cases b <;> simpa using hr
  | node a d (node la ld ll lr) nil =>
    intro h
    rw [removeNode_right_nil]
    have hl := ((bstOrdered_node_iff a d (node la ld ll lr) nil).mp h).2.2.1
    cases b <;> simpa using hl
  | node a d (node la ld ll lr) (node ra rd rl rr) =>
    intro h
    rw [bstOrdered_node_iff] at h
    obtain ⟨hlk, hrk, hol, hor⟩ := h
    rw [removeNode_two_children, bstOrdered_node_iff]
    have h1 := inorderKV_eq_leftmostD_cons rl ra rd rr
    have hhead : keys (node ra rd rl rr) =
        (leftmostD ra rd rl).2.key_ :: (keys (node ra rd rl rr)).tail := by
      conv_lhs => rw [keys, h1]
      rw [List.map_cons]
      congr 1
      rw [keys, tail_map]
    have hsk : (leftmostD ra rd rl).2.key_ ∈ keys (node ra rd rl rr) := by
      rw [hhead]; exact List.mem_cons_self _ _
    refine ⟨?_, ?_, hol, removeLeftmost_ordered hor⟩
    · intro x hx
      exact lt_of_lt_of_le (hlk x hx) (hrk _ hsk)
    · intro x hx
      rw [keys_removeLeftmost] at hx
      have hsorted := sorted_keys_of_bstOrdered hor
      rw [hhead] at hsorted
      exact (List.sorted_cons.mp hsorted).1 x hx

theorem removeGo_node [LinearOrder K] (k : K) (b : Bool) (a : Nat) (d : NodeData K V)
    (l r : Tree K V) :
    removeGo k b (node a d l r) =
      if k = d.key_ then removeNode b (node a d l r)
      else if k < d.key_ then node a d (removeGo k false l) r
      else node a d l (removeGo k false r) := rfl

/-- Every key of `removeGo k b t` is a key of `t`. -/
theorem mem_keys_removeGo [LinearOrder K] (k : K) :
    ∀ (t : Tree K V) (b : Bool), ∀ x ∈ keys (removeGo k b t), x ∈ keys t := by
  intro t
  induction t with
  | nil => intro b x hx; exact hx
  | node a d l r ihl ihr =>
    intro b x hx
    rw [removeGo_node] at hx
    by_cases h1 : k = d.key_
    · rw [if_pos h1] at hx
      exact mem_keys_removeNode b _ x hx
    · rw [if_neg h1] at hx
      by_cases h2 : k < d.key_
      · rw [if_pos h2, keys_node] at hx
        rw [keys_node]
        rcases List.mem_append.mp hx with hx | hx
        · exact List.mem_append.mpr (Or.inl (ihl false x hx))
        · exact List.mem_append.mpr (Or.inr hx)
      · rw [if_neg h2, keys_node] at hx
        rw [keys_node]
        rcases List.mem_append.mp hx with hx | hx
        · exact List.mem_append.mpr (Or.inl hx)
        · rcases List.mem_cons.mp hx with hx | hx
          · exact List.mem_append.mpr (Or.inr (hx ▸ List.mem_cons_self _ _))
          · exact List.mem_append.mpr
              (Or.inr (List.mem_cons_of_mem _ (ihr false x hx)))

/-- `remove(Key)` preserves the BST ordering property. -/
theorem removeGo_ordered [LinearOrder K] (k : K) :
    ∀ (t : Tree K V) (b : Bool), bstOrdered t = true →
      bstOrdered (removeGo k b t) = true := by
  intro t
  induction t with
  | nil => intro b h; exact h
  | node a d l r ihl ihr =>
    intro b h
    rw [removeGo_node]
    by_cases h1 : k = d.key_
    · rw [if_pos h1]
      exact removeNode_ordered b _ h
    · rw [if_neg h1]
      rw [bstOrdered_node_iff] at h
      by_cases h2 : k < d.key_
      · rw [if_pos h2, bstOrdered_node_iff]
        refine ⟨?_, h.2.1, ihl false h.2.2.1, h.2.2.2⟩
        intro x hx
        exact h.1 x (mem_keys_removeGo k l false x hx)
      · rw [if_neg h2, bstOrdered_node_iff]
        refine ⟨h.1, ?_, h.2.2.1, ihr false h.2.2.2⟩
        intro x hx
        exact h.2.1 x (mem_keys_removeGo k r false x hx)

/-! ### Parent-pointer consistency under removal -/

theorem parentOk_setParent {t : Tree K V} {q : Option Nat} (p : Option Nat)
    (h : parentOk q t = true) : parentOk p (setParent t p) = true := by
  cases t with
  | nil => rfl
  | node a d l r =>
    rw [parentOk_node_iff] at h
    rw [setParent, parentOk_node_iff]
    exact ⟨rfl, h.2.1, h.2.2⟩

theorem parentOk_removeLeftmost :
    ∀ (t : Tree K V) (p : Option Nat), parentOk p t = true →
      parentOk p (removeLeftmost t) = true := by
  intro t
  induction t using removeLeftmost.induct with
  | case1 => intro p h; exact h
  | case2 a d r =>
    intro p h
    rw [parentOk_node_iff] at h
    rw [removeLeftmost, ← h.1]
    exact parentOk_setParent d.parent_ h.2.2
  | case3 a d la ld ll lr r ih =>
    intro p h
    rw [parentOk_node_iff] at h
    rw [removeLeftmost, parentOk_node_iff]
    exact ⟨h.1, ih (some a) h.2.1, h.2.2⟩

/-- `remove(Node*)` preserves parent-pointer consistency; at the root the
new root's `parent_` is nulled, elsewhere the surviving child inherits the
removed node's stored `parent_`. -/
theorem parentOk_removeNode :
    ∀ (t : Tree K V) (b : Bool) (p : Option Nat), (b = true → p = none) →
      parentOk p t = true → parentOk p (removeNode b t) = true := by
  intro t
  match t with
  | nil => intro b p _ h; exact h
  | node a d nil r =>
    intro b p hroot h
    rw [parentOk_node_iff] at h
    rw [removeNode_left_nil]
    cases b with
    | false => simpa using h.1 ▸ parentOk_setParent d.parent_ h.2.2
    | true => simpa [hroot rfl] using parentOk_setParent none h.2.2
  | node a d (node la ld ll lr) nil =>
    intro b p hroot h
    rw [parentOk_node_iff] at h
    rw [removeNode_right_nil]
    cases b with
    | false => simpa using h.1 ▸ parentOk_setParent d.parent_ h.2.1
    | true => simpa [hroot rfl] using parentOk_setParent none h.2.1
  | node a d (node la ld ll lr) (node ra rd rl rr) =>
    intro b p hroot h
    rw [parentOk_node_iff] at h
    rw [removeNode_two_children, parentOk_node_iff]
    exact ⟨h.1, h.2.1, parentOk_removeLeftmost _ (some a) h.2.2⟩

/-- `remove(Key)` preserves parent-pointer consistency. -/
theorem parentOk_removeGo [LinearOrder K] (k : K) :
    ∀ (t : Tree K V) (b : Bool) (p : Option Nat), (b = true → p = none) →
      parentOk p t = true → parentOk p (removeGo k b t) = true := by
  intro t
  induction t with
  | nil => intro b p _ h; exact h
  | node a d l r ihl ihr =>
    intro b p hroot h
    rw [removeGo_node]
    by_cases h1 : k = d.key_
    · rw [if_pos h1]
      exact parentOk_removeNode _ b p hroot h
    · rw [if_neg h1]
      rw [parentOk_node_iff] at h
      by_cases h2 : k < d.key_
      · rw [if_pos h2, parentOk_node_iff]
        exact ⟨h.1, ihl false (some a) (by simp) h.2.1, h.2.2⟩
      · rw [if_neg h2, parentOk_node_iff]
        exact ⟨h.1, h.2.1, ihr false (some a) (by simp) h.2.2⟩

/-! ### Address bounds under removal -/

theorem addrsBelow_setParent (n : Nat) (t : Tree K V) (p : Option Nat) :
    addrsBelow n (setParent t p) = addrsBelow n t := by
  cases t <;> rfl

theorem addrsBelow_removeLeftmost {n : Nat} :
    ∀ (t : Tree K V), addrsBelow n t = true →
      addrsBelow n (removeLeftmost t) = true := by
  intro t
  induction t using removeLeftmost.induct with
  | case1 => intro h; exact h
  | case2 a d r =>
    intro h
    rw [addrsBelow_node_iff] at h
    rw [removeLeftmost, addrsBelow_setParent]
    exact h.2.2
  | case3 a d la ld ll lr r ih =>
    intro h
    rw [addrsBelow_node_iff] at h
    rw [removeLeftmost, addrsBelow_node_iff]
    exact ⟨h.1, ih h.2.1, h.2.2⟩

theorem addrsBelow_removeNode {n : Nat} (b : Bool) :
    ∀ (t : Tree K V), addrsBelow n t = true →
      addrsBelow n (removeNode b t) = true := by
  intro t
  match t with
  | nil => intro h; exact h
  | node a d nil r =>
    intro h
    rw [addrsBelow_node_iff] at h
    rw [removeNode_left_nil]
    cases b <;> simpa [addrsBelow_setParent] using h.2.2
  | node a d (node la ld ll lr) nil =>
    intro h
    rw [addrsBelow_node_iff] at h
    rw [removeNode_right_nil]
    cases b <;> simpa [addrsBelow_setParent] using h.2.1
  | node a d (node la ld ll lr) (node ra rd rl rr) =>
    intro h
    rw [addrsBelow_node_iff] at h
    rw [removeNode_two_children, addrsBelow_node_iff]
    exact ⟨h.1, h.2.1, addrsBelow_removeLeftmost _ h.2.2⟩

theorem addrsBelow_removeGo [LinearOrder K] (k : K) {n : Nat} :
    ∀ (t : Tree K V) (b : Bool), addrsBelow n t = true →
      addrsBelow n (removeGo k b t) = true := by
  intro t
  induction t with
  | nil => intro b h; exact h
  | node a d l r ihl ihr =>
    intro b h
    rw [removeGo_node]
    by_cases h1 : k = d.key_
    · rw [if_pos h1]
      exact addrsBelow_removeNode b _ h
    · rw [if_neg h1]
      rw [addrsBelow_node_iff] at h
      by_cases h2 : k < d.key_
      · rw [if_pos h2, addrsBelow_node_iff]
        exact ⟨h.1, ihl false h.2.1, h.2.2⟩
      · rw [if_neg h2, addrsBelow_node_iff]
        exact ⟨h.1, h.2.1, ihr false h.2.2⟩

/-! ### Deep copy -/

theorem strip_setParent (t : Tree K V) (p : Option Nat) :
    strip (setParent t p) = strip t := by
  cases t <;> rfl

theorem makeCopy_nil (n : Nat) : makeCopy (nil : Tree K V) n = (nil, n) := rfl

theorem makeCopy_node (a : Nat) (d : NodeData K V) (l r : Tree K V) (n : Nat) :
    makeCopy (node a d l r) n =
      (node n ⟨d.key_, d.value_, none⟩
        (setParent (makeCopy l (n + 1)).1 (some n))
        (setParent (makeCopy r (makeCopy l (n + 1)).2).1 (some n)),
       (makeCopy r (makeCopy l (n + 1)).2).2) := rfl

/-- The deep copy has the same shape, keys and values as the original. -/
theorem strip_makeCopy :
    ∀ (t : Tree K V) (n : Nat), strip (makeCopy t n).1 = strip t := by
  intro t
  induction t with
  | nil => intro n; rfl
  | node a d l r ihl ihr =>
    intro n
    rw [makeCopy_node, strip, strip, strip_setParent, strip_setParent, ihl, ihr]

theorem inorderKV_strip (t : Tree K V) : inorderKV (strip t) = inorderKV t := by
  induction t with
  | nil => rfl
  | node a d l r ihl ihr => rw [strip, inorderKV_node, inorderKV_node, ihl, ihr]

theorem getHeight_strip (t : Tree K V) : getHeight (strip t) = getHeight t := by
  induction t with
  | nil => rfl
  | node a d l r ihl ihr =>
    rw [strip]
    show 1 + max (getHeight (strip l)) (getHeight (strip r)) = _
    rw [ihl, ihr]
    rfl

theorem inorderKV_makeCopy (t : Tree K V) (n : Nat) :
    inorderKV (makeCopy t n).1 = inorderKV t := by
  rw [← inorderKV_strip, strip_makeCopy, inorderKV_strip]

theorem getHeight_makeCopy (t : Tree K V) (n : Nat) :
    getHeight (makeCopy t n).1 = getHeight t := by
  rw [← getHeight_strip, strip_makeCopy, getHeight_strip]

theorem keys_makeCopy (t : Tree K V) (n : Nat) :
    keys (makeCopy t n).1 = keys t := by
  rw [keys, keys, inorderKV_makeCopy]

/-- The deep copy of a BST-ordered tree is BST-ordered. -/
theorem bstOrdered_makeCopy [LinearOrder K] :
    ∀ (t : Tree K V) (n : Nat), bstOrdered t = true →
      bstOrdered (makeCopy t n).1 = true := by
  intro t
  induction t with
  | nil => intro n h; exact h
  | node a d l r ihl ihr =>
    intro n h
    rw [bstOrdered_node_iff] at h
    rw [makeCopy_node, bstOrdered_node_iff]
    refine ⟨?_, ?_, ?_, ?_⟩
    · intro x hx
      rw [keys_setParent, keys_makeCopy] at hx
      exact h.1 x hx
    · intro x hx
      rw [keys_setParent, keys_makeCopy] at hx
      exact h.2.1 x hx
    · rw [bstOrdered_setParent]
      exact ihl (n + 1) h.2.2.1
    · rw [bstOrdered_setParent]
      exact ihr (makeCopy l (n + 1)).2 h.2.2.2

/-- `makeCopy` rebuilds parent pointers consistently inside the copy; the
copied root keeps the null parent given by the `Node` constructor. -/
theorem parentOk_makeCopy :
    ∀ (t : Tree K V) (n : Nat), parentOk none (makeCopy t n).1 = true := by
  intro t
  induction t with
  | nil => intro n; rfl
  | node a d l r ihl ihr =>
    intro n
    rw [makeCopy_node, parentOk_node_iff]
    exact ⟨rfl, parentOk_setParent (some n) (ihl (n + 1)),
      parentOk_setParent (some n) (ihr (makeCopy l (n + 1)).2)⟩

/-- `makeCopy` draws addresses from `n` upward and returns the advanced
counter: the counter grows, the copy sits entirely in `[n, counter)`. -/
theorem makeCopy_addr_bounds :
    ∀ (t : Tree K V) (n : Nat),
      n ≤ (makeCopy t n).2 ∧ addrsBelow (makeCopy t n).2 (makeCopy t n).1 = true ∧
        ∀ x ∈ addrs (makeCopy t n).1, n ≤ x := by
  intro t
  induction t with
  | nil => intro n; exact ⟨le_refl n, rfl, by intro x hx; exact absurd hx (List.not_mem_nil x)⟩
  | node a d l r ihl ihr =>
    intro n
    obtain ⟨hl1, hl2, hl3⟩ := ihl (n + 1)
    obtain ⟨hr1, hr2, hr3⟩ := ihr (makeCopy l (n + 1)).2
    rw [makeCopy_node]
    refine ⟨by omega, ?_, ?_⟩
    · rw [addrsBelow_node_iff, addrsBelow_setParent, addrsBelow_setParent]
      exact ⟨by omega, addrsBelow_mono hr1 hl2, hr2⟩
    · intro x hx
      rw [addrs, addrs_setParent, addrs_setParent] at hx
      rcases List.mem_cons.mp hx with hx | hx
      · omega
      · rcases List.mem_append.mp hx with hx | hx
        · exact le_trans (Nat.le_succ n) (hl3 x hx)
        · exact le_trans (le_trans (Nat.le_succ n) hl1) (hr3 x hx)

/-- An address below `n` never occurs in a copy drawn from `n` upward: the
copy shares no node with any tree allocated before it. -/
theorem addrs_makeCopy_disjoint {t u : Tree K V} {n : Nat}
    (hu : addrsBelow n u = true) :
    ∀ x ∈ addrs (makeCopy t n).1, x ∉ addrs u := by
  intro x hx
  have hge : n ≤ x := (makeCopy_addr_bounds t n).2.2 x hx
  intro hmem
  induction u with
  | nil => exact absurd hmem (List.not_mem_nil x)
  | node a d l r ihl ihr =>
    rw [addrsBelow_node_iff] at hu
    rw [addrs] at hmem
    rcases List.mem_cons.mp hmem with rfl | hmem
    · omega
    · rcases List.mem_append.mp hmem with hmem | hmem
      · exact ihl hu.2.1 hmem
      · exact ihr hu.2.2 hmem

/-! ### Search correctness -/

section Search

variable [LinearOrder K]

/-- A found node carries the sought key and its stored value appears in
the in-order sequence paired with that key. -/
theorem searchRecursive_some :
    ∀ (t : Tree K V) (k : K) (u : Tree K V), searchRecursive t k = some u →
      ∃ v, rootValue u = some v ∧ (k, v) ∈ inorderKV t := by
  intro t
  induction t with
  | nil => intro k u h; exact absurd h (by rw [searchRecursive]; exact Option.noConfusion)
  | node a d l r ihl ihr =>
    intro k u h
    rw [searchRecursive] at h
    by_cases h1 : k = d.key_
    · rw [if_pos h1] at h
      refine ⟨d.value_, ?_, ?_⟩
      · rw [← Option.some_inj.mp h]; rfl
      · rw [inorderKV_node, h1]
        exact List.mem_append.mpr (Or.inr (List.mem_cons_self _ _))
    · rw [if_neg h1] at h
      by_cases h2 : k < d.key_
      · rw [if_pos h2] at h
        obtain ⟨v, hv, hmem⟩ := ihl k u h
        exact ⟨v, hv, List.mem_append.mpr (Or.inl hmem)⟩
      · rw [if_neg h2] at h
        obtain ⟨v, hv, hmem⟩ := ihr k u h
        exact ⟨v, hv, List.mem_append.mpr (Or.inr (List.mem_cons_of_mem _ hmem))⟩

/-- On a BST-ordered tree, the descent finds every present key. -/
theorem searchRecursive_ne_none_of_mem :
    ∀ (t : Tree K V) (k : K), bstOrdered t = true → k ∈ keys t →
      searchRecursive t k ≠ none := by
  intro t
  induction t with
  | nil => intro k _ hk; simp at hk
  | node a d l r ihl ihr =>
    intro k ho hk
    rw [bstOrdered_node_iff] at ho
    rw [searchRecursive]
    by_cases h1 : k = d.key_
    · rw [if_pos h1]; exact Option.noConfusion
    · rw [if_neg h1]
      rw [keys_node] at hk
      rcases List.mem_append.mp hk with hk | hk
      · have h2 : k < d.key_ := ho.1 k hk
        rw [if_pos h2]
        exact ihl k ho.2.2.1 hk
      · rcases List.mem_cons.mp hk with hk | hk
        · exact absurd hk h1
        · have h2 : ¬k < d.key_ := not_lt_of_le (ho.2.1 k hk)
          rw [if_neg h2]
          exact ihr k ho.2.2.2 hk

/-- On a BST-ordered tree, the search fails exactly when no node carries
the sought key. -/
theorem searchRecursive_eq_none_iff (t : Tree K V) (k : K)
    (ho : bstOrdered t = true) :
    searchRecursive t k = none ↔ k ∉ keys t := by
  constructor
  · intro hnone hk
    exact searchRecursive_ne_none_of_mem t k ho hk hnone
  · intro hk
    cases hs : searchRecursive t k with
    | none => rfl
    | some u =>
      obtain ⟨v, _, hmem⟩ := searchRecursive_some t k u hs
      exact absurd (List.mem_map.mpr ⟨(k, v), hmem, rfl⟩) hk

end Search

/-! ### Removing an absent key -/

/-- When no node carries the key, the removal descent rebuilds the tree
unchanged (`remove(nullptr)` is a no-op). -/
theorem removeGo_of_not_mem [LinearOrder K] (k : K) :
    ∀ (t : Tree K V) (b : Bool), k ∉ keys t → removeGo k b t = t := by
  intro t
  induction t with
  | nil => intro b _; rfl
  | node a d l r ihl ihr =>
    intro b hk
    rw [keys_node] at hk
    have h1 : k ≠ d.key_ := fun h =>
      hk (List.mem_append.mpr (Or.inr (h ▸ List.mem_cons_self _ _)))
    have hl : k ∉ keys l := fun h => hk (List.mem_append.mpr (Or.inl h))
    have hr : k ∉ keys r := fun h =>
      hk (List.mem_append.mpr (Or.inr (List.mem_cons_of_mem _ h)))
    rw [removeGo_node, if_neg h1]
    by_cases h2 : k < d.key_
    · rw [if_pos h2, ihl false hl]
    · rw [if_neg h2, ihr false hr]

end Tree

/-! ## Invariants of reachable tree states -/

namespace BST

variable {K V : Type} [LinearOrder K]

theorem insertTop_ordered (newAddr : Nat) (k : K) (v : V) (t : Tree K V)
    (h : Tree.bstOrdered t = true) :
    Tree.bstOrdered (Tree.insertTop newAddr k v t) = true := by
  cases t with
  | nil => rfl
  | node a d l r => exact Tree.bstOrdered_insertRecursive newAddr k v _ h

theorem insertTop_parentOk (newAddr : Nat) (k : K) (v : V) (t : Tree K V)
    (h : Tree.parentOk none t = true) :
    Tree.parentOk none (Tree.insertTop newAddr k v t) = true := by
  cases t with
  | nil => rfl
  | node a d l r => exact Tree.parentOk_insertRecursive newAddr k v _ none h

theorem insertTop_addrsBelow {newAddr n : Nat} (hn : newAddr < n) (k : K) (v : V)
    (t : Tree K V) (h : Tree.addrsBelow n t = true) :
    Tree.addrsBelow n (Tree.insertTop newAddr k v t) = true := by
  cases t with
  | nil => simp [Tree.insertTop, Tree.addrsBelow_node_iff, Tree.addrsBelow, hn]
  | node a d l r => exact Tree.addrsBelow_insertRecursive newAddr k v hn _ h

/-- The three structural invariants every reachable tree state enjoys:
the BST ordering property, parent-pointer consistency with a null root
parent, and all node addresses below the allocation counter. -/
theorem reachable_inv {s : BST K V} (h : Reachable s) :
    Tree.bstOrdered s.root_ = true ∧ Tree.parentOk none s.root_ = true ∧
      Tree.addrsBelow s.next s.root_ = true := by
  induction h with
  | empty => exact ⟨rfl, rfl, rfl⟩
  | insert k v hs ih =>
    refine ⟨insertTop_ordered _ k v _ ih.1, insertTop_parentOk _ k v _ ih.2.1, ?_⟩
    exact insertTop_addrsBelow (Nat.lt_succ_self _) k v _
      (Tree.addrsBelow_mono (Nat.le_succ _) ih.2.2)
  | remove k hs ih =>
    exact ⟨Tree.removeGo_ordered k _ true ih.1,
      Tree.parentOk_removeGo k _ true none (fun _ => rfl) ih.2.1,
      Tree.addrsBelow_removeGo k _ true ih.2.2⟩
  | clear hs ih => exact ⟨rfl, rfl, rfl⟩
  | copy hs ih =>
    exact ⟨Tree.bstOrdered_makeCopy _ _ ih.1, Tree.parentOk_makeCopy _ _,
      (Tree.makeCopy_addr_bounds _ _).2.1⟩
  | assign ht hs iht ihs =>
    exact ⟨Tree.bstOrdered_makeCopy _ _ ihs.1, Tree.parentOk_makeCopy _ _,
      (Tree.makeCopy_addr_bounds _ _).2.1⟩

/-- Ordering invariant with insertion-only histories, for arbitrary
starting states. -/
theorem insertList_ordered (ps : List (K × V)) :
    ∀ (s : BST K V), Tree.bstOrdered s.root_ = true →
      Tree.bstOrdered (insertList ps s).root_ = true := by
  induction ps with
  | nil => intro s h; exact h
  | cons p ps ih =>
    intro s h
    rw [insertList]
    rw [List.foldl_cons]
    exact ih _ (insertTop_ordered _ p.1 p.2 _ h)

end BST

end BinarySearchTree

/-! ## The claims -/

namespace BinarySearchTree

theorem sampleBST_reachable : BST.Reachable sampleBST :=
  BST.Reachable.insert 3 30 (BST.Reachable.insert 1 10
    (BST.Reachable.insert 2 20 BST.Reachable.empty))

/-- C1: for every reachable tree state (any finite sequence of insert,
remove, copy and clear operations starting from the empty tree) and every
node in it, all keys in the node's left subtree are strictly less than the
node's key and all keys in its right subtree are greater than or equal to
it (duplicates are routed right on insertion). -/
theorem bstOrdered_of_reachable {K V : Type} [LinearOrder K] (s : BST K V)
    (h : BST.Reachable s) : Tree.bstOrdered s.root_ = true :=
  (BST.reachable_inv h).1

theorem bstOrdered_of_reachable_witness :
    Tree.bstOrdered (BST.removeOp 2 sampleBST).root_ = true :=
  bstOrdered_of_reachable (BST.removeOp 2 sampleBST)
    (BST.Reachable.remove 2 sampleBST_reachable)

/-- C2: for every sequence of `(key, value)` pairs inserted into an
initially empty tree, the in-order traversal visits keys in
non-decreasing order. -/
theorem sorted_inorder_of_insertList {K V : Type} [LinearOrder K]
    (ps : List (K × V)) :
    List.Sorted (· ≤ ·) (Tree.keys (BST.insertList ps BST.empty).root_) :=
  Tree.sorted_keys_of_bstOrdered
    (BST.insertList_ordered ps BST.empty rfl)

/-- C3: on every BST-ordered tree, `search(key)` fails (throws
`invalid_argument`, modelled as `none`) exactly when no node carries the
key; otherwise the returned value is stored in the tree under that key
(it is the value of the node found by the top-down descent); and the
tree state is unchanged. -/
theorem searchOp_spec {K V : Type} [LinearOrder K] (s : BST K V) (k : K)
    (ho : Tree.bstOrdered s.root_ = true) :
    (BST.searchOp s k).2 = s ∧
      ((BST.searchOp s k).1 = none ↔ k ∉ Tree.keys s.root_) ∧
      (∀ v, (BST.searchOp s k).1 = some v → (k, v) ∈ Tree.inorderKV s.root_) := by
  have hbind : (BST.searchOp s k).1 =
      (Tree.searchRecursive s.root_ k).bind Tree.rootValue := rfl
  refine ⟨rfl, ?_, ?_⟩
  · rw [hbind]
    cases hs : Tree.searchRecursive s.root_ k with
    | none =>
      exact ⟨fun _ => (Tree.searchRecursive_eq_none_iff s.root_ k ho).mp hs,
        fun _ => rfl⟩
    | some u =>
      obtain ⟨v, hv, hmem⟩ := Tree.searchRecursive_some s.root_ k u hs
      show Tree.rootValue u = none ↔ _
      rw [hv]
      constructor
      · intro habs; exact Option.noConfusion habs
      · intro hk
        exact absurd (List.mem_map.mpr ⟨(k, v), hmem, rfl⟩) hk
  · intro v hv
    rw [hbind] at hv
    cases hs : Tree.searchRecursive s.root_ k with
    | none =>
      rw [hs] at hv
      exact Option.noConfusion hv
    | some u =>
      rw [hs] at hv
      obtain ⟨w, hw, hmem⟩ := Tree.searchRecursive_some s.root_ k u hs
      have hv2 : Tree.rootValue u = some v := hv
      rw [hw] at hv2
      exact (Option.some_inj.mp hv2) ▸ hmem

theorem searchOp_spec_witness :
    (BST.searchOp sampleBST 2).2 = sampleBST ∧
      ((BST.searchOp sampleBST 2).1 = none ↔ 2 ∉ Tree.keys sampleBST.root_) ∧
      (∀ v, (BST.searchOp sampleBST 2).1 = some v →
        (2, v) ∈ Tree.inorderKV sampleBST.root_) :=
  searchOp_spec sampleBST 2 (by decide)

/-- C4: removing a key that is not in the tree is a silent no-op: the
whole tree state — in particular its in-order sequence and its height —
is unchanged. -/
theorem removeOp_absent_key_noop {K V : Type} [LinearOrder K] (s : BST K V)
    (k : K) (h : k ∉ Tree.keys s.root_) :
    BST.removeOp k s = s ∧
      Tree.inorderKV (BST.removeOp k s).root_ = Tree.inorderKV s.root_ ∧
      Tree.getHeight (BST.removeOp k s).root_ = Tree.getHeight s.root_ := by
  have h1 : Tree.removeGo k true s.root_ = s.root_ :=
    Tree.removeGo_of_not_mem k s.root_ true h
  have h2 : BST.removeOp k s = s := by
    show BST.mk (Tree.removeGo k true s.root_) s.next = s
    rw [h1]
  exact ⟨h2, by rw [h2], by rw [h2]⟩

theorem removeOp_absent_key_noop_witness :
    BST.removeOp 7 sampleBST = sampleBST ∧
      Tree.inorderKV (BST.removeOp 7 sampleBST).root_ =
        Tree.inorderKV sampleBST.root_ ∧
      Tree.getHeight (BST.removeOp 7 sampleBST).root_ =
        Tree.getHeight sampleBST.root_ :=
  removeOp_absent_key_noop sampleBST 7 (by decide)

/-- C5: removing a node that has both children copies the in-order
successor's key and value into the targeted node (which keeps its heap
address `a` — the node object is not deleted in this branch) and removes
the successor — the first node of the right subtree's in-order sequence —
from its original position in the right subtree. -/
theorem removeNode_two_children_spec (b : Bool) (a la ra : Nat)
    (d ld rd : NodeData Nat Nat) (ll lr rl rr : Tree Nat Nat) :
    Tree.removeNode b (Tree.node a d (Tree.node la ld ll lr) (Tree.node ra rd rl rr)) =
      Tree.node a
        ⟨(Tree.leftmostD ra rd rl).2.key_, (Tree.leftmostD ra rd rl).2.value_, d.parent_⟩
        (Tree.node la ld ll lr) (Tree.removeLeftmost (Tree.node ra rd rl rr)) ∧
      (Tree.inorderKV (Tree.node ra rd rl rr)).head? =
        some ((Tree.leftmostD ra rd rl).2.key_, (Tree.leftmostD ra rd rl).2.value_) ∧
      Tree.inorderKV (Tree.removeLeftmost (Tree.node ra rd rl rr)) =
        (Tree.inorderKV (Tree.node ra rd rl rr)).tail := by
  refine ⟨Tree.removeNode_two_children b a la ra d ld rd ll lr rl rr, ?_,
    Tree.inorderKV_removeLeftmost (Tree.node ra rd rl rr)⟩
  rw [Tree.inorderKV_eq_leftmostD_cons rl ra rd rr]
  rfl

/-- C6: the copy constructor performs a deep copy: same shape, keys and
values (hence the same in-order sequence and height), and no node of the
copy is a node of the original, so mutating the copy cannot touch the
original. -/
theorem copyOp_deep_and_disjoint {K V : Type} [LinearOrder K] (s : BST K V)
    (h : BST.Reachable s) :
    Tree.strip (BST.copyOp s).root_ = Tree.strip s.root_ ∧
      Tree.inorderKV (BST.copyOp s).root_ = Tree.inorderKV s.root_ ∧
      Tree.getHeight (BST.copyOp s).root_ = Tree.getHeight s.root_ ∧
      ∀ x ∈ Tree.addrs (BST.copyOp s).root_, x ∉ Tree.addrs s.root_ :=
  ⟨Tree.strip_makeCopy s.root_ s.next,
    Tree.inorderKV_makeCopy s.root_ s.next,
    Tree.getHeight_makeCopy s.root_ s.next,
    Tree.addrs_makeCopy_disjoint (BST.reachable_inv h).2.2⟩

theorem copyOp_deep_and_disjoint_witness :
    Tree.strip (BST.copyOp sampleBST).root_ = Tree.strip sampleBST.root_ ∧
      Tree.inorderKV (BST.copyOp sampleBST).root_ =
        Tree.inorderKV sampleBST.root_ ∧
      Tree.getHeight (BST.copyOp sampleBST).root_ =
        Tree.getHeight sampleBST.root_ ∧
      ∀ x ∈ Tree.addrs (BST.copyOp sampleBST).root_,
        x ∉ Tree.addrs sampleBST.root_ :=
  copyOp_deep_and_disjoint sampleBST sampleBST_reachable

/-- C7: in every reachable tree state, every node's stored parent pointer
designates its actual parent — if a node has a left or right child, that
child's `parent_` holds the node's address — and the root's parent is
null. -/
theorem parentOk_of_reachable {K V : Type} [LinearOrder K] (s : BST K V)
    (h : BST.Reachable s) : Tree.parentOk none s.root_ = true :=
  (BST.reachable_inv h).2.1

theorem parentOk_of_reachable_witness :
    Tree.parentOk none (BST.removeOp 1 (BST.copyOp sampleBST)).root_ = true :=
  parentOk_of_reachable (BST.removeOp 1 (BST.copyOp sampleBST))
    (BST.Reachable.remove 1 (BST.Reachable.copy sampleBST_reachable))

/-- C8: for every tree and key, the iterative and the recursive search
return the same node (and hence agree on found/not-found). -/
theorem searchIterative_eq_searchRecursive {K V : Type} [LinearOrder K]
    (t : Tree K V) (k : K) :
    Tree.searchIterative t k = Tree.searchRecursive t k :=
  Tree.searchLoop_eq_searchRecursive k t (Tree.size t) (le_refl _)

/-- C9: the demo scenario: inserting ("Ricardo",2.5), ("Ellen",3.5),
("Chen",2.5), ("Kevin",3.25), ("Kumar",3.05) into an empty tree gives
height 3, `search("Ellen")` returns 3.5, and the in-order key sequence
Chen, Ellen, Kevin, Kumar, Ricardo. -/
theorem studentGrades_scenario :
    Tree.getHeight studentGrades.root_ = 3 ∧
      (BST.searchOp studentGrades ("Ellen".toList)).1 = some 3.5 ∧
      Tree.keys studentGrades.root_ =
        ["Chen".toList, "Ellen".toList, "Kevin".toList, "Kumar".toList,
         "Ricardo".toList] :=
  ⟨by decide, by rfl, by decide⟩

/-- C10: self-assignment (`t = t` through the by-value copy-and-swap
assignment operator) leaves the tree's contents unchanged: the in-order
sequence and the height after the assignment equal those before. -/
theorem assignOp_self_preserves {K V : Type} [LinearOrder K] (s : BST K V) :
    Tree.inorderKV (BST.assignOp s s).root_ = Tree.inorderKV s.root_ ∧
      Tree.getHeight (BST.assignOp s s).root_ = Tree.getHeight s.root_ :=
  ⟨Tree.inorderKV_makeCopy s.root_ (max s.next s.next),
    Tree.getHeight_makeCopy s.root_ (max s.next s.next)⟩

end BinarySearchTree
